import Mathlib

/-
Verification of the filter-expression parser in
`plantcv/parallel/parsers.py` (class `ParseMatchArg`): a tokenizer
(`_tokenize_match_arg` / `_flush_current_item`) followed by a finite
state machine (`_create_dictionary` / `_flush_value` / `_flush_key_value`).

Strings are embedded as `List Char`.  The three parallel Python lists
`self.tokens`, `self.specials`, `self.indices` are always extended in
lock step (only inside `_flush_current_item`), and are consumed zipped,
so they are embedded as a single list of `Token` records.  Python
exceptions are embedded as an `Except Err` result; the error constructors
carry the character offset passed to the exception constructor.  A Python
`UnboundLocalError` (reading the loop variable `idx` after a loop that
never ran) is embedded as `Err.unboundLocalError` / `Option.none`.
-/

namespace PlantCV

/-- A lexical token: its text, whether it is a special character, and the
index recorded for it by `_flush_current_item`. -/
structure Token where
  text : List Char
  special : Bool
  idx : Nat
deriving DecidableEq, Repr

/-- `ParseMatchArg.special_characters = ":[],"`. -/
def specialCharacters : List Char := [':', '[', ']', ',']

/-- `quote_symbols = ["'", '"']` in `_tokenize_match_arg`. -/
def quoteSymbols : List Char := ['\'', '"']

/-- A character with no syntactic meaning outside quotes: not a quote
symbol, not a special character, not the escape backslash. -/
def plainChar (c : Char) : Prop :=
  c ∉ quoteSymbols ∧ c ∉ specialCharacters ∧ c ≠ '\\'

instance (c : Char) : Decidable (plainChar c) := by
  unfold plainChar; infer_instance

/-- The tokenizer's mutable state: `self.tokens`/`self.specials`/
`self.indices` (as one token list), `self.current_item`, the `escaped`
flag and the `active_quotes` stack. -/
structure TState where
  tokens : List Token
  current_item : List Char
  escaped : Bool
  active_quotes : List Char
deriving DecidableEq, Repr

/-- State at the top of `_tokenize_match_arg`. -/
def initT : TState := ⟨[], [], false, []⟩

/-- `ParseMatchArg._flush_current_item`: if `current_item` is nonempty,
append it as a token (with the given `special` flag and index) and clear
it. -/
def flushCurrentItem (special : Bool) (idx : Nat) (s : TState) : TState :=
  if s.current_item ≠ [] then
    { s with tokens := s.tokens ++ [⟨s.current_item, special, idx⟩],
             current_item := [] }
  else s

/-- Python `list.index`: position of the first occurrence (only used on
members, where it never raises). -/
def idxOf (c : Char) : List Char → Nat
  | [] => 0
  | q :: qs => if q = c then 0 else idxOf c qs + 1

/-- One iteration of the character loop of `_tokenize_match_arg`. -/
def tokStep (s : TState) (idx : Nat) (char : Char) : TState :=
  if s.escaped then
    { s with current_item := s.current_item ++ [char], escaped := false }
  else if char ∈ quoteSymbols then
    if char ∈ s.active_quotes then
      let quote_index := idxOf char s.active_quotes
      { s with active_quotes := s.active_quotes.take quote_index,
               current_item :=
                 if quote_index ≠ 0 then s.current_item ++ [char]
                 else s.current_item }
    else
      { s with active_quotes := s.active_quotes ++ [char] }
  else if s.active_quotes = [] then
    if char ∈ specialCharacters then
      let s1 := flushCurrentItem false idx s
      let s2 := { s1 with current_item := s1.current_item ++ [char] }
      flushCurrentItem true idx s2
    else if char = '\\' then
      { s with escaped := true }
    else if char = ',' then
      -- the redundant comma branch of the source
      let s1 := flushCurrentItem false idx s
      let s2 := { s1 with current_item := s1.current_item ++ [char] }
      flushCurrentItem true idx s2
    else
      { s with current_item := s.current_item ++ [char] }
  else
    { s with current_item := s.current_item ++ [char] }

/-- The `for idx, char in enumerate(self.match_string)` loop, starting at
index `idx`. -/
def tokRun : List Char → Nat → TState → TState
  | [], _, s => s
  | c :: cs, idx, s => tokRun cs (idx + 1) (tokStep s idx c)

/-- `ParseMatchArg._tokenize_match_arg`.  After the loop the source runs
`self._flush_current_item(special=False, idx=idx)` where `idx` is the
loop variable: for the empty string the loop never ran, `idx` is unbound
and Python raises `UnboundLocalError`, embedded as `none`.  For a
nonempty string the final value of `idx` is `length - 1`. -/
def tokenize (cs : List Char) : Option (List Token) :=
  match cs with
  | [] => none
  | _ :: _ =>
    some (flushCurrentItem false (cs.length - 1) (tokRun cs 0 initT)).tokens

/-- `tokStep` with the redundant `elif char == ","` branch omitted. -/
def tokStepNoComma (s : TState) (idx : Nat) (char : Char) : TState :=
  if s.escaped then
    { s with current_item := s.current_item ++ [char], escaped := false }
  else if char ∈ quoteSymbols then
    if char ∈ s.active_quotes then
      let quote_index := idxOf char s.active_quotes
      { s with active_quotes := s.active_quotes.take quote_index,
               current_item :=
                 if quote_index ≠ 0 then s.current_item ++ [char]
                 else s.current_item }
    else
      { s with active_quotes := s.active_quotes ++ [char] }
  else if s.active_quotes = [] then
    if char ∈ specialCharacters then
      let s1 := flushCurrentItem false idx s
      let s2 := { s1 with current_item := s1.current_item ++ [char] }
      flushCurrentItem true idx s2
    else if char = '\\' then
      { s with escaped := true }
    else
      { s with current_item := s.current_item ++ [char] }
  else
    { s with current_item := s.current_item ++ [char] }

/-- Character loop built from `tokStepNoComma`. -/
def tokRunNoComma : List Char → Nat → TState → TState
  | [], _, s => s
  | c :: cs, idx, s => tokRunNoComma cs (idx + 1) (tokStepNoComma s idx c)

/-- Tokenizer built from `tokStepNoComma`. -/
def tokenizeNoComma (cs : List Char) : Option (List Token) :=
  match cs with
  | [] => none
  | _ :: _ =>
    some (flushCurrentItem false (cs.length - 1)
            (tokRunNoComma cs 0 initT)).tokens

/-- The guard that must hold for an iteration of `_tokenize_match_arg` to
enter the dedicated `elif char == ","` branch: not escaped, not a quote
symbol, quote stack empty, not a generic special character, not a
backslash, and equal to a comma. -/
def commaBranchTaken (s : TState) (c : Char) : Bool :=
  !s.escaped && !(quoteSymbols.contains c) && s.active_quotes.isEmpty &&
    !(specialCharacters.contains c) && !(c == '\\') && (c == ',')

/-- The six parser modes of `_create_dictionary`. -/
inductive Mode
  | expectingKey
  | expectingColon
  | expectingValue
  | expectingListValue
  | expectingListComma
  | expectingKeyComma
deriving DecidableEq, Repr

/-- The exception classes raised by `_create_dictionary`, each carrying
the index handed to the exception constructor.  `unboundLocalError`
stands for Python's `UnboundLocalError` on reading the loop variable
`idx` when the loop never ran. -/
inductive Err
  | emptyKey (idx : Nat)
  | emptyValue (idx : Nat)
  | unexpectedSpecialCharacter (idx : Nat)
  | missingColon (idx : Nat)
  | keyValuePairInList (idx : Nat)
  | emptyList (idx : Nat)
  | onlyCommaValid (idx : Nat)
  | incompleteKeyValuePair (idx : Nat)
  | unboundLocalError
deriving DecidableEq, Repr

/-- `self.out`: a Python dict from key to list of values; Python dicts
preserve insertion order and here keys are inserted at the tail, so the
dict is embedded as an association list. -/
abbrev FilterMap := List (List Char × List (List Char))

/-- Dictionary lookup (`self.out[k]` / `k in self.out`). -/
def fmLookup (fm : FilterMap) (k : List Char) : Option (List (List Char)) :=
  match fm with
  | [] => none
  | (k', vs) :: rest => if k' = k then some vs else fmLookup rest k

/-- In-place `self.out[k].extend(vs)` on the association list. -/
def fmExtend (fm : FilterMap) (k : List Char) (vs : List (List Char)) :
    FilterMap :=
  fm.map (fun p => if p.1 = k then (p.1, p.2 ++ vs) else p)

/-- The parser's cross-iteration state: `self.out`, `self.current_key`,
`self.current_value_list`.  (`self.current_value` is initialized in the
source but never read or written afterwards, so it is not modelled.) -/
structure PState where
  out : FilterMap
  current_key : Option (List Char)
  current_value_list : List (List Char)
deriving DecidableEq, Repr

/-- State at the top of `_create_dictionary`. -/
def initP : PState := ⟨[], none, []⟩

/-- `ParseMatchArg._flush_key_value`. -/
def flushKeyValue (s : PState) : PState :=
  match s.current_key with
  | none => s
  | some k =>
    if (fmLookup s.out k).isSome then
      { out := fmExtend s.out k s.current_value_list,
        current_key := none, current_value_list := [] }
    else
      { out := s.out ++ [(k, s.current_value_list)],
        current_key := none, current_value_list := [] }

/-- One iteration of the token loop of `_create_dictionary`.  In mode
`expecting_colon` with a non-special token no branch of the source
matches, so the token is silently skipped. -/
def step (s : PState) (mode : Mode) (t : Token) : Except Err (PState × Mode) :=
  match mode with
  | .expectingKey =>
    if t.special = true then .error (.incompleteKeyValuePair t.idx)
    else .ok ({ s with current_key := some t.text }, .expectingColon)
  | .expectingColon =>
    if t.special = true then
      if t.text = [':'] then .ok (s, .expectingValue)
      else .error (.missingColon t.idx)
    else .ok (s, .expectingColon)
  | .expectingValue =>
    if t.special = true ∧ t.text ≠ ['['] then
      .error (.unexpectedSpecialCharacter t.idx)
    else if t.text = ['['] ∧ t.special = true then
      .ok (s, .expectingListValue)
    else
      .ok (flushKeyValue
            { s with current_value_list := s.current_value_list ++ [t.text] },
          .expectingKeyComma)
  | .expectingListValue =>
    if t.text = [':'] ∧ t.special = true then
      .error (.unexpectedSpecialCharacter t.idx)
    else if t.text = [']'] ∧ t.special = true then
      if s.current_value_list = [] then .error (.emptyList t.idx)
      else .error (.emptyValue t.idx)
    else
      .ok ({ s with current_value_list := s.current_value_list ++ [t.text] },
           .expectingListComma)
  | .expectingListComma =>
    if t.text = [']'] ∧ t.special = true then
      .ok (flushKeyValue s, .expectingKeyComma)
    else if t.text = [','] ∧ t.special = true then
      .ok (s, .expectingListValue)
    else .error (.onlyCommaValid t.idx)
  | .expectingKeyComma =>
    if ¬(t.text = [','] ∧ t.special = true) then
      .error (.onlyCommaValid t.idx)
    else .ok (s, .expectingKey)

/-- The token loop of `_create_dictionary`. -/
def runAux : List Token → PState → Mode → Except Err (PState × Mode)
  | [], s, mode => .ok (s, mode)
  | t :: ts, s, mode =>
    match step s mode t with
    | .error e => .error e
    | .ok (s', mode') => runAux ts s' mode'

/-- `ParseMatchArg._create_dictionary`.  The end-of-input checks raise
with `idx + 1` where `idx` is the loop variable, i.e. the index recorded
for the last token; with no tokens at all the variable is unbound and
Python raises `UnboundLocalError`. -/
def createDictionary (ts : List Token) : Except Err FilterMap :=
  match runAux ts initP .expectingKey with
  | .error e => .error e
  | .ok (s, mode) =>
    match mode with
    | .expectingValue =>
      match ts.getLast? with
      | some t => .error (.emptyValue (t.idx + 1))
      | none => .error .unboundLocalError
    | .expectingKey =>
      match ts.getLast? with
      | some t => .error (.emptyKey (t.idx + 1))
      | none => .error .unboundLocalError
    | .expectingColon =>
      match ts.getLast? with
      | some t => .error (.incompleteKeyValuePair (t.idx + 1))
      | none => .error .unboundLocalError
    | _ => .ok (flushKeyValue s).out

/-- `ParseMatchArg.parse`: tokenize, then build the dictionary. -/
def parse (cs : List Char) : Except Err FilterMap :=
  match tokenize cs with
  | none => .error .unboundLocalError
  | some ts => createDictionary ts

/-- The dictionary update performed by `_flush_key_value` on one pending
`(key, value list)` pair: extend the existing entry when the key is
present, append a new entry otherwise. -/
def mergePair (out : FilterMap) (p : List Char × List (List Char)) :
    FilterMap :=
  if (fmLookup out p.1).isSome then fmExtend out p.1 p.2
  else out ++ [p]

/-- Ghost observation of one parser iteration: the pending pair that
`_flush_key_value` merges into `self.out` during this iteration,
if any (conditions mirror the branches of `step`). -/
def stepTrace (s : PState) (mode : Mode) (t : Token) :
    List (List Char × List (List Char)) :=
  match mode with
  | .expectingValue =>
    if t.special = true ∧ t.text ≠ ['['] then []
    else if t.text = ['['] ∧ t.special = true then []
    else
      match s.current_key with
      | none => []
      | some k => [(k, s.current_value_list ++ [t.text])]
  | .expectingListComma =>
    if t.text = [']'] ∧ t.special = true then
      match s.current_key with
      | none => []
      | some k => [(k, s.current_value_list)]
    else []
  | _ => []

/-- Ghost observation of the whole token loop: the pairs merged into
`self.out`, in merge order (empty past the first error). -/
def runTrace : List Token → PState → Mode →
    List (List Char × List (List Char))
  | [], _, _ => []
  | t :: ts, s, mode =>
    match step s mode t with
    | .error _ => []
    | .ok (s', mode') => stepTrace s mode t ++ runTrace ts s' mode'

/-- The pending pair merged by the final `_flush_key_value` after the
token loop, if any. -/
def finalTrace (s : PState) : List (List Char × List (List Char)) :=
  match s.current_key with
  | none => []
  | some k => [(k, s.current_value_list)]

/-- All pairs merged into `self.out` during `_create_dictionary`, in
encounter order: one pair per completed key occurrence. -/
def parseTrace (ts : List Token) : List (List Char × List (List Char)) :=
  match runAux ts initP .expectingKey with
  | .error _ => []
  | .ok (s, _) => runTrace ts initP .expectingKey ++ finalTrace s

/-- The value lists recorded for key `k`, in encounter order. -/
def valsFor (k : List Char) (tr : List (List Char × List (List Char))) :
    List (List (List Char)) :=
  (tr.filter (fun p => decide (p.1 = k))).map (fun p => p.2)

/-- The value list of each occurrence of key `k` in the expression whose
token sequence is `ts`, in encounter order. -/
def occValueLists (ts : List Token) (k : List Char) :
    List (List (List Char)) :=
  valsFor k (parseTrace ts)

/-- No two consecutive non-special tokens. -/
def noTwoPlain : List Token → Bool
  | [] => true
  | [_] => true
  | t1 :: t2 :: r => (t1.special || t2.special) && noTwoPlain (t2 :: r)

/-- The list is empty or its last token is special. -/
def endsSpecial : List Token → Bool
  | [] => true
  | [t] => t.special
  | _ :: r => endsSpecial r

/-- Two tokens with the same text and special flag (their recorded
indices may differ). -/
def sameTok (t t' : Token) : Prop :=
  t.text = t'.text ∧ t.special = t'.special

/-- Pointwise `sameTok` on token lists. -/
def sameToks (ts ts' : List Token) : Prop := List.Forall₂ sameTok ts ts'

/-- The quote stacks that can actually arise: each of the two quote
symbols is pushed only while absent, so each occurs at most once. -/
def quotesOK (l : List Char) : Prop :=
  l = [] ∨ l = ['\''] ∨ l = ['"'] ∨ l = ['\'', '"'] ∨ l = ['"', '\'']

instance (l : List Char) : Decidable (quotesOK l) := by
  unfold quotesOK; infer_instance

/-- Tokenizer state invariant: the quote stack has one of the reachable
shapes, and the escape flag is only ever set outside quotes. -/
def TInv (s : TState) : Prop :=
  quotesOK s.active_quotes ∧ (s.escaped = true → s.active_quotes = [])

/-- `v1,v2,...,vn` (empty for no values). -/
def joinSep : List (List Char) → List Char
  | [] => []
  | v :: vs =>
    match vs with
    | [] => v
    | _ :: _ => v ++ ',' :: joinSep vs

/-- The expression `key:[v1,...,vn]`. -/
def buildExpr (key : List Char) (vs : List (List Char)) : List Char :=
  key ++ ':' :: '[' :: (joinSep vs ++ [']'])

/-- The tokens the tokenizer produces for `v1,...,vn]` starting at string
index `i` (each value is flushed at the index of the separator that
follows it). -/
def listToks : Nat → List (List Char) → List Token
  | _, [] => []
  | i, v :: vs =>
    match vs with
    | [] => [⟨v, false, i + v.length⟩, ⟨[']'], true, i + v.length⟩]
    | _ :: _ =>
      ⟨v, false, i + v.length⟩ :: ⟨[','], true, i + v.length⟩ ::
        listToks (i + v.length + 1) vs

/-! ### Basic lemmas -/

theorem flushCurrentItem_nil (b : Bool) (i : Nat) (s : TState)
    (h : s.current_item = []) : flushCurrentItem b i s = s := by
  simp [flushCurrentItem, h]

theorem tokRun_append (a b : List Char) (idx : Nat) (s : TState) :
    tokRun (a ++ b) idx s = tokRun b (idx + a.length) (tokRun a idx s) := by
  induction a generalizing idx s with
  | nil => simp [tokRun]
  | cons c a ih =>
    have h : idx + (c :: a).length = (idx + 1) + a.length := by
      simp [List.length_cons]; omega
    simp only [List.cons_append, tokRun, h]
    exact ih (idx + 1) (tokStep s idx c)

theorem runAux_append (a b : List Token) (s : PState) (m : Mode) :
    runAux (a ++ b) s m =
      (runAux a s m).bind (fun p => runAux b p.1 p.2) := by
  induction a generalizing s m with
  | nil => simp [runAux, Except.bind]
  | cons t a ih =>
    simp only [List.cons_append, runAux]
    cases h : step s m t with
    | error e => simp [Except.bind]
    | ok r => obtain ⟨s', m'⟩ := r; simp [ih]

/-! ### C1 and C2: evaluations at the failing inputs -/

/-- Claim C1: the recorded `position` of every token is the index of the
token's first character.  FALSE on the code: `_flush_current_item` tags a
flushed plain token with the index of the character that triggered the
flush.  For `"id:[1a,2a]"` the code records indices `[2,2,3,6,6,9,9]`
(`"id"` starts at 0 but is recorded at 2, `"1a"` starts at 4 but is
recorded at 6, `"2a"` starts at 7 but is recorded at 9), while the
docstring of `_create_dictionary` documents `indices` as "where in the
original string each token begins" and lists `[0,2,3,4,6,7,8]` for this
very example. -/
theorem C1_token_positions_not_start :
    tokenize "id:[1a,2a]".data =
      some [⟨"id".data, false, 2⟩, ⟨":".data, true, 2⟩,
            ⟨"[".data, true, 3⟩, ⟨"1a".data, false, 6⟩,
            ⟨",".data, true, 6⟩, ⟨"2a".data, false, 9⟩,
            ⟨"]".data, true, 9⟩] := by
  rfl

/-- Claim C2: the empty expression parses to an empty `FilterMap` and
tokenization never raises.  FALSE on the code: for the empty string the
loop of `_tokenize_match_arg` never runs, so the final
`self._flush_current_item(special=False, idx=idx)` reads the unassigned
loop variable `idx` and Python raises `UnboundLocalError`; `parse("")`
therefore crashes instead of returning `{}`. -/
theorem C2_empty_expression_crashes :
    tokenize ([] : List Char) = none ∧
    parse [] = .error .unboundLocalError :=
  ⟨rfl, rfl⟩

/-! ### C8: the comma branch of the tokenizer is dead -/

theorem commaBranchTaken_false (s : TState) (c : Char) :
    commaBranchTaken s c = false := by
  by_cases h : c = ','
  · subst h
    have hmem : specialCharacters.contains ',' = true := by decide
    simp [commaBranchTaken, hmem]
    intro _ _ _
    decide
  · have hne : (c == ',') = false := by
      simpa using h
    simp [commaBranchTaken, hne]

theorem tokStep_eq_tokStepNoComma (s : TState) (idx : Nat) (c : Char) :
    tokStep s idx c = tokStepNoComma s idx c := by
  unfold tokStep tokStepNoComma
  split_ifs with h1 h2 h3 h4 h5 h6 <;>
    simp_all [specialCharacters]

theorem tokRun_eq_tokRunNoComma (cs : List Char) (idx : Nat) (s : TState) :
    tokRun cs idx s = tokRunNoComma cs idx s := by
  induction cs generalizing idx s with
  | nil => rfl
  | cons c cs ih => simp [tokRun, tokRunNoComma, tokStep_eq_tokStepNoComma, ih]

/-- Claim C8: the tokenizer's dedicated comma branch
(`elif char == ","`) is unreachable: its guard can never hold, because
`','` is already among the generic special characters checked first, so
the tokenizer with the branch omitted is extensionally equal to the
original. -/
theorem C8_comma_branch_unreachable :
    (∀ s c, commaBranchTaken s c = false) ∧
    (∀ s idx c, tokStep s idx c = tokStepNoComma s idx c) ∧
    (∀ cs, tokenize cs = tokenizeNoComma cs) := by
  refine ⟨commaBranchTaken_false, tokStep_eq_tokStepNoComma, ?_⟩
  intro cs
  cases cs with
  | nil => rfl
  | cons c cs => simp [tokenize, tokenizeNoComma, tokRun_eq_tokRunNoComma]

/-! ### C3: unterminated lists are silently finalized -/

/-- Claim C3: if the token sequence ends while the parser is in
`expecting_list_value` or `expecting_list_comma` (an unterminated list
such as `key:[1,2`), `parse` succeeds: the end-of-input check raises for
none of these modes, and the final `_flush_key_value` merges the partial
value list accumulated under the current key into the result, as if the
list had been closed. -/
theorem C3_unterminated_list_finalized (cs : List Char) (ts : List Token)
    (s : PState) (m : Mode)
    (h1 : tokenize cs = some ts)
    (h2 : runAux ts initP .expectingKey = .ok (s, m))
    (h3 : m = .expectingListValue ∨ m = .expectingListComma) :
    parse cs = .ok (flushKeyValue s).out := by
  simp only [parse, h1, createDictionary, h2]
  rcases h3 with h3 | h3 <;> subst h3 <;> rfl

/-- Witness for C3 at the unterminated list `"key:[1,2"`. -/
theorem C3_witness :
    parse "key:[1,2".data = .ok [("key".data, ["1".data, "2".data])] := by
  have h := C3_unterminated_list_finalized "key:[1,2".data
      [⟨"key".data, false, 3⟩, ⟨":".data, true, 3⟩, ⟨"[".data, true, 4⟩,
       ⟨"1".data, false, 6⟩, ⟨",".data, true, 6⟩, ⟨"2".data, false, 7⟩]
      ⟨[], some "key".data, ["1".data, "2".data]⟩ .expectingListComma
      rfl rfl (Or.inr rfl)
  exact h

/-! ### C7: closing bracket while a list value is expected -/

/-- Claim C7: whenever the parser consumes a special `"]"` token in mode
`expecting_list_value`, it raises `EmptyList` if the accumulated value
list is empty and `EmptyValue` otherwise, aborting the parse. -/
theorem C7_bracket_in_list_value (pre rest : List Token) (s : PState)
    (idx : Nat)
    (h : runAux pre initP .expectingKey = .ok (s, .expectingListValue)) :
    createDictionary (pre ++ ⟨[']'], true, idx⟩ :: rest) =
      .error (if s.current_value_list = [] then .emptyList idx
              else .emptyValue idx) := by
  have hr : runAux (pre ++ ⟨[']'], true, idx⟩ :: rest) initP .expectingKey =
      .error (if s.current_value_list = [] then Err.emptyList idx
              else Err.emptyValue idx) := by
    rw [runAux_append, h]
    show runAux (⟨[']'], true, idx⟩ :: rest) s .expectingListValue = _
    by_cases hc : s.current_value_list = []
    · simp [runAux, step, hc]
    · simp [runAux, step, hc]
  simp only [createDictionary, hr]

/-- Witness for C7 at `"a:[1,]"`: the list is nonempty, so the dangling
comma before `]` raises `EmptyValue` at the offset of `]`. -/
theorem C7_witness :
    parse "a:[1,]".data = .error (.emptyValue 5) := by
  have h := C7_bracket_in_list_value
      [⟨"a".data, false, 1⟩, ⟨":".data, true, 1⟩, ⟨"[".data, true, 2⟩,
       ⟨"1".data, false, 4⟩, ⟨",".data, true, 4⟩] []
      ⟨[], some "a".data, ["1".data]⟩ 5 rfl
  exact h

/-! ### C4: closing a quote symbol -/

@[simp] theorem flushCurrentItem_active_quotes (b : Bool) (i : Nat)
    (s : TState) :
    (flushCurrentItem b i s).active_quotes = s.active_quotes := by
  unfold flushCurrentItem; split_ifs <;> rfl

@[simp] theorem flushCurrentItem_escaped (b : Bool) (i : Nat) (s : TState) :
    (flushCurrentItem b i s).escaped = s.escaped := by
  unfold flushCurrentItem; split_ifs <;> rfl

theorem quotesOK_take (l : List Char) (n : Nat) (h : quotesOK l) :
    quotesOK (l.take n) := by
  rcases h with h | h | h | h | h <;> subst h <;>
    rcases n with _ | _ | n <;> simp [quotesOK]

theorem quotesOK_push (l : List Char) (c : Char) (h : quotesOK l)
    (hc : c ∈ quoteSymbols) (hmem : c ∉ l) : quotesOK (l ++ [c]) := by
  simp only [quoteSymbols, List.mem_cons, List.not_mem_nil, or_false] at hc
  rcases hc with hc | hc <;> subst hc <;>
    rcases h with h | h | h | h | h <;> subst h <;>
      first
        | decide
        | exact absurd (by decide) hmem

theorem TInv_initT : TInv initT :=
  ⟨Or.inl rfl, fun _ => rfl⟩

theorem TInv_tokStep (s : TState) (idx : Nat) (c : Char) (h : TInv s) :
    TInv (tokStep s idx c) := by
  obtain ⟨hq, he⟩ := h
  unfold tokStep
  split_ifs with h1 h2 h3 h4 h5 h6 h7
  · exact ⟨hq, fun hx => by simp at hx⟩
  · exact ⟨quotesOK_take _ _ hq, fun hx => absurd hx h1⟩
  · exact ⟨quotesOK_push _ _ hq h2 h3, fun hx => absurd hx h1⟩
  · refine ⟨?_, fun _ => ?_⟩
    · simp only [flushCurrentItem_active_quotes]
      exact hq
    · simp only [flushCurrentItem_active_quotes]
      exact h4
  · exact ⟨hq, fun _ => h4⟩
  · refine ⟨?_, fun _ => ?_⟩
    · simp only [flushCurrentItem_active_quotes]
      exact hq
    · simp only [flushCurrentItem_active_quotes]
      exact h4
  · exact ⟨hq, fun hx => absurd hx h1⟩
  · exact ⟨hq, fun hx => absurd hx h1⟩

theorem TInv_tokRun (cs : List Char) (idx : Nat) (s : TState) (h : TInv s) :
    TInv (tokRun cs idx s) := by
  induction cs generalizing idx s with
  | nil => exact h
  | cons c cs ih => exact ih _ _ (TInv_tokStep s idx c h)

/-- Quote-closing behavior of one tokenizer step, for any state
satisfying the tokenizer invariant. -/
theorem tokStep_close_quote (s : TState) (idx : Nat) (c : Char)
    (hinv : TInv s) (hmem : c ∈ s.active_quotes) :
    ∃ m, s.active_quotes[m]? = some c ∧
      c ∉ s.active_quotes.drop (m + 1) ∧
      tokStep s idx c =
        { s with active_quotes := s.active_quotes.take m,
                 current_item :=
                   s.current_item ++ (if m = 0 then [] else [c]) } := by
  obtain ⟨hq, he⟩ := hinv
  have hesc : s.escaped = false := by
    cases hb : s.escaped
    · rfl
    · rw [he hb] at hmem; exact absurd hmem (List.not_mem_nil c)
  obtain ⟨tk, ci, esc, aq⟩ := s
  simp only at hesc hmem
  subst hesc
  rcases hq with h | h | h | h | h <;> simp only at h <;> subst h
  · exact absurd hmem (List.not_mem_nil c)
  · have hc : c = '\'' := by simpa using hmem
    subst hc
    refine ⟨0, rfl, by simp, ?_⟩
    simp [tokStep, quoteSymbols, idxOf]
  · have hc : c = '"' := by simpa using hmem
    subst hc
    refine ⟨0, rfl, by simp, ?_⟩
    simp [tokStep, quoteSymbols, idxOf]
  · have hc : c = '\'' ∨ c = '"' := by simpa using hmem
    rcases hc with hc | hc <;> subst hc
    · refine ⟨0, rfl, by simp, ?_⟩
      simp [tokStep, quoteSymbols, idxOf]
    · refine ⟨1, rfl, by simp, ?_⟩
      simp [tokStep, quoteSymbols, idxOf]
  · have hc : c = '"' ∨ c = '\'' := by simpa using hmem
    rcases hc with hc | hc <;> subst hc
    · refine ⟨0, rfl, by simp, ?_⟩
      simp [tokStep, quoteSymbols, idxOf]
    · refine ⟨1, rfl, by simp, ?_⟩
      simp [tokStep, quoteSymbols, idxOf]

/-- Claim C4: whenever the tokenizer reads a quote symbol `c` that is
already open somewhere in the quote stack, it truncates the stack to the
position before the most recent occurrence of `c` (the entry at index
`m` with no later occurrence), and appends `c` to the pending text iff
that occurrence was not the bottom-most stack entry (`m ≠ 0`).  Stated
for every reachable tokenizer state, i.e. every state produced by
running the character loop from the initial state. -/
theorem C4_quote_close (cs : List Char) (idx0 idx : Nat) (c : Char)
    (hmem : c ∈ (tokRun cs idx0 initT).active_quotes) :
    ∃ m, (tokRun cs idx0 initT).active_quotes[m]? = some c ∧
      c ∉ (tokRun cs idx0 initT).active_quotes.drop (m + 1) ∧
      tokStep (tokRun cs idx0 initT) idx c =
        { tokRun cs idx0 initT with
          active_quotes := (tokRun cs idx0 initT).active_quotes.take m,
          current_item :=
            (tokRun cs idx0 initT).current_item ++
              (if m = 0 then [] else [c]) } :=
  tokStep_close_quote _ idx c (TInv_tokRun cs idx0 initT TInv_initT) hmem

/-- Witness for C4: after reading `"'\"ab"` the stack is `['\'', '"']`
and the pending text is `"ab"`; reading `'"'` closes the inner (most
recent, non-bottom) entry at index 1, truncating the stack to `['\'']`
and appending `'"'` to the pending text. -/
theorem C4_witness :
    ∃ m, (tokRun "'\"ab".data 0 initT).active_quotes[m]? = some '"' ∧
      '"' ∉ (tokRun "'\"ab".data 0 initT).active_quotes.drop (m + 1) ∧
      tokStep (tokRun "'\"ab".data 0 initT) 4 '"' =
        { tokRun "'\"ab".data 0 initT with
          active_quotes := (tokRun "'\"ab".data 0 initT).active_quotes.take m,
          current_item :=
            (tokRun "'\"ab".data 0 initT).current_item ++
              (if m = 0 then [] else ['"']) } :=
  C4_quote_close "'\"ab".data 0 4 '"' (by decide)

/-! ### C9: no two consecutive plain tokens; `expecting_colon` only sees
special tokens -/

theorem endsSpecial_append_one (l : List Token) (t : Token) :
    endsSpecial (l ++ [t]) = t.special := by
  induction l with
  | nil => rfl
  | cons a l ih =>
    cases l with
    | nil => rfl
    | cons b l' =>
      simp only [List.cons_append, endsSpecial] at ih ⊢
      exact ih

theorem noTwoPlain_append_one (l : List Token) (t : Token)
    (h : noTwoPlain l = true)
    (h2 : endsSpecial l = true ∨ t.special = true) :
    noTwoPlain (l ++ [t]) = true := by
  induction l with
  | nil => rfl
  | cons a l ih =>
    cases l with
    | nil =>
      simp only [endsSpecial] at h2
      simp only [List.cons_append, List.nil_append, noTwoPlain,
        Bool.and_eq_true]
      refine ⟨?_, trivial⟩
      rcases h2 with h2 | h2 <;> simp [h2]
    | cons b l' =>
      simp only [noTwoPlain, Bool.and_eq_true] at h
      have h2' : endsSpecial (b :: l') = true ∨ t.special = true := by
        rcases h2 with h2 | h2
        · left; simpa [endsSpecial] using h2
        · right; exact h2
      have hrec := ih h.2 h2'
      simp only [List.cons_append] at hrec ⊢
      simp only [noTwoPlain, Bool.and_eq_true]
      exact ⟨h.1, hrec⟩

theorem tokens_struct_tokStep (s : TState) (idx : Nat) (c : Char)
    (h1 : noTwoPlain s.tokens = true) (h2 : endsSpecial s.tokens = true) :
    noTwoPlain (tokStep s idx c).tokens = true ∧
      endsSpecial (tokStep s idx c).tokens = true := by
  have hflush : ∀ _ : Unit,
      noTwoPlain (let s1 := flushCurrentItem false idx s
        let s2 := { s1 with current_item := s1.current_item ++ [c] }
        flushCurrentItem true idx s2).tokens = true ∧
      endsSpecial (let s1 := flushCurrentItem false idx s
        let s2 := { s1 with current_item := s1.current_item ++ [c] }
        flushCurrentItem true idx s2).tokens = true := by
    intro _
    by_cases hci : s.current_item = []
    · simp only [flushCurrentItem, hci, ne_eq, not_true_eq_false, if_false,
        List.nil_append, List.cons_ne_nil, not_false_eq_true, if_true]
      exact ⟨noTwoPlain_append_one _ _ h1 (Or.inl h2),
             by rw [endsSpecial_append_one]⟩
    · simp only [flushCurrentItem, ne_eq, hci, not_false_eq_true, if_true,
        List.nil_append, List.cons_ne_nil, if_false, not_true_eq_false]
      refine ⟨?_, by rw [endsSpecial_append_one]⟩
      refine noTwoPlain_append_one _ _ ?_ (Or.inr rfl)
      exact noTwoPlain_append_one _ _ h1 (Or.inl h2)
  unfold tokStep
  split_ifs with b1 b2 b3 b4 b5 b6 b7
  · exact ⟨h1, h2⟩
  · exact ⟨h1, h2⟩
  · exact ⟨h1, h2⟩
  · exact hflush ()
  · exact ⟨h1, h2⟩
  · exact hflush ()
  · exact ⟨h1, h2⟩
  · exact ⟨h1, h2⟩

theorem tokens_struct_tokRun (cs : List Char) (idx : Nat) (s : TState)
    (h1 : noTwoPlain s.tokens = true) (h2 : endsSpecial s.tokens = true) :
    noTwoPlain (tokRun cs idx s).tokens = true ∧
      endsSpecial (tokRun cs idx s).tokens = true := by
  induction cs generalizing idx s with
  | nil => exact ⟨h1, h2⟩
  | cons c cs ih =>
    obtain ⟨g1, g2⟩ := tokens_struct_tokStep s idx c h1 h2
    exact ih (idx + 1) (tokStep s idx c) g1 g2

theorem noTwoPlain_tokenize (cs : List Char) (ts : List Token)
    (h : tokenize cs = some ts) : noTwoPlain ts = true := by
  cases cs with
  | nil => cases h
  | cons c cs' =>
    obtain ⟨hn, he⟩ :=
      tokens_struct_tokRun (c :: cs') 0 initT rfl rfl
    simp only [tokenize, Option.some.injEq] at h
    subst h
    unfold flushCurrentItem
    split_ifs
    · exact noTwoPlain_append_one _ _ hn (Or.inl he)
    · exact hn

theorem step_to_colon_not_special (s : PState) (m : Mode) (t : Token)
    (s1 : PState) (h : step s m t = .ok (s1, .expectingColon)) :
    t.special = false := by
  cases m <;> simp only [step] at h <;> split_ifs at h <;> simp_all

theorem runAux_colon_last_plain (ts : List Token) (s0 : PState) (m0 : Mode)
    (s : PState) (h : runAux ts s0 m0 = .ok (s, .expectingColon)) :
    (m0 = .expectingColon ∧ ts = []) ∨
      ∃ t, ts.getLast? = some t ∧ t.special = false := by
  induction ts generalizing s0 m0 with
  | nil =>
    simp only [runAux, Except.ok.injEq, Prod.mk.injEq] at h
    exact Or.inl ⟨h.2, rfl⟩
  | cons t ts ih =>
    simp only [runAux] at h
    cases hs : step s0 m0 t with
    | error e => rw [hs] at h; cases h
    | ok r =>
      obtain ⟨s1, m1⟩ := r
      rw [hs] at h
      rcases ih s1 m1 h with ⟨hm, hts⟩ | ⟨t', ht', hsp⟩
      · subst hts
        refine Or.inr ⟨t, rfl, ?_⟩
        exact step_to_colon_not_special s0 m0 t s1 (hm ▸ hs)
      · refine Or.inr ⟨t', ?_, hsp⟩
        cases ts with
        | nil => cases ht'
        | cons a b => simpa [List.getLast?_cons_cons] using ht'

theorem noTwoPlain_adjacent (pre : List Token) (t : Token)
    (rest : List Token) (p : Token)
    (h : noTwoPlain (pre ++ t :: rest) = true)
    (hl : pre.getLast? = some p) :
    p.special = true ∨ t.special = true := by
  induction pre with
  | nil => cases hl
  | cons a pre ih =>
    cases pre with
    | nil =>
      obtain rfl : a = p := by simpa using hl
      simp only [List.cons_append, List.nil_append, noTwoPlain,
        Bool.and_eq_true] at h
      simpa using h.1
    | cons b pre' =>
      simp only [List.cons_append, noTwoPlain, Bool.and_eq_true] at h
      have hl' : (b :: pre').getLast? = some p := by
        simpa [List.getLast?_cons_cons] using hl
      have := ih (by simpa [List.cons_append] using h.2) hl'
      exact this

/-- Claim C9: for every input, the token sequence never contains two
consecutive plain tokens, and consequently whenever the parser is in
mode `expecting_colon` the next token it consumes is special — the
silent plain-token-skipping path of `_create_dictionary` is unreachable
through `parse`. -/
theorem C9_colon_mode_sees_only_special (cs : List Char) (ts : List Token)
    (h : tokenize cs = some ts) :
    noTwoPlain ts = true ∧
      ∀ pre t rest s, ts = pre ++ t :: rest →
        runAux pre initP .expectingKey = .ok (s, .expectingColon) →
        t.special = true := by
  have hn := noTwoPlain_tokenize cs ts h
  refine ⟨hn, ?_⟩
  intro pre t rest s hts hrun
  rcases runAux_colon_last_plain pre initP .expectingKey s hrun with
    ⟨hm, _⟩ | ⟨p, hp, hps⟩
  · exact absurd hm (by decide)
  · subst hts
    rcases noTwoPlain_adjacent pre t rest p hn hp with hsp | hsp
    · rw [hps] at hsp; exact absurd hsp (by decide)
    · exact hsp

/-- Witness for C9 at `"a:1"`: the token after the plain key token (the
one consumed in mode `expecting_colon`) is the special `":"`. -/
theorem C9_witness :
    noTwoPlain [⟨"a".data, false, 1⟩, ⟨":".data, true, 1⟩,
                ⟨"1".data, false, 2⟩] = true ∧
      (⟨":".data, true, 1⟩ : Token).special = true := by
  have h := C9_colon_mode_sees_only_special "a:1".data
      [⟨"a".data, false, 1⟩, ⟨":".data, true, 1⟩, ⟨"1".data, false, 2⟩] rfl
  exact ⟨h.1, h.2 [⟨"a".data, false, 1⟩] ⟨":".data, true, 1⟩
    [⟨"1".data, false, 2⟩] ⟨[], some "a".data, []⟩ rfl rfl⟩

/-! ### C5: repeated keys append, never overwrite -/

theorem fmExtend_cons (k' : List Char) (vs' : List (List Char))
    (out : FilterMap) (k : List Char) (vs : List (List Char)) :
    fmExtend ((k', vs') :: out) k vs =
      (if k' = k then (k', vs' ++ vs) else (k', vs')) :: fmExtend out k vs :=
  rfl

theorem fmLookup_fmExtend_self (out : FilterMap) (k : List Char)
    (vs : List (List Char)) :
    fmLookup (fmExtend out k vs) k = (fmLookup out k).map (· ++ vs) := by
  induction out with
  | nil => rfl
  | cons p out ih =>
    obtain ⟨k', vs'⟩ := p
    rw [fmExtend_cons]
    by_cases hk : k' = k
    · subst hk
      rw [if_pos rfl]
      simp [fmLookup]
    · rw [if_neg hk]
      simp [fmLookup, hk, ih]

theorem fmLookup_fmExtend_ne (out : FilterMap) (k₁ k : List Char)
    (vs : List (List Char)) (hne : k₁ ≠ k) :
    fmLookup (fmExtend out k₁ vs) k = fmLookup out k := by
  induction out with
  | nil => rfl
  | cons p out ih =>
    obtain ⟨k', vs'⟩ := p
    rw [fmExtend_cons]
    by_cases hk : k' = k₁
    · subst hk
      rw [if_pos rfl]
      simp [fmLookup, hne, ih]
    · rw [if_neg hk]
      by_cases hk2 : k' = k <;> simp [fmLookup, hk2, ih]

theorem fmLookup_append (a b : FilterMap) (k : List Char) :
    fmLookup (a ++ b) k =
      match fmLookup a k with
      | some vs => some vs
      | none => fmLookup b k := by
  induction a with
  | nil => rfl
  | cons p a ih =>
    obtain ⟨k', vs'⟩ := p
    by_cases hk : k' = k <;> simp [fmLookup, hk, ih]

theorem fmLookup_mergePair (out : FilterMap) (k₁ k : List Char)
    (vs : List (List Char)) :
    fmLookup (mergePair out (k₁, vs)) k =
      if k₁ = k then some ((fmLookup out k).getD [] ++ vs)
      else fmLookup out k := by
  unfold mergePair
  by_cases hp : (fmLookup out k₁).isSome
  · simp only [hp, if_true]
    by_cases hk : k₁ = k
    · subst hk
      rw [fmLookup_fmExtend_self, if_pos rfl]
      obtain ⟨vs', hvs⟩ := Option.isSome_iff_exists.mp hp
      simp [hvs]
    · rw [fmLookup_fmExtend_ne out k₁ k vs hk, if_neg hk]
  · have hif : (fmLookup out k₁).isSome = false := by simpa using hp
    simp only [hif, Bool.false_eq_true, if_false]
    rw [fmLookup_append]
    by_cases hk : k₁ = k
    · subst hk
      have hnone : fmLookup out k₁ = none :=
        Option.not_isSome_iff_eq_none.mp hp
      simp [hnone, fmLookup]
    · cases hcase : fmLookup out k
      · simp [hcase, fmLookup, hk]
      · simp [hcase, hk]

theorem fmLookup_foldl_mergePair
    (tr : List (List Char × List (List Char))) (out : FilterMap)
    (k : List Char) :
    fmLookup (tr.foldl mergePair out) k =
      if (fmLookup out k).isSome ∨
          tr.any (fun p => decide (p.1 = k)) = true then
        some ((fmLookup out k).getD [] ++ (valsFor k tr).flatten)
      else none := by
  induction tr generalizing out with
  | nil =>
    cases hc : fmLookup out k <;> simp [valsFor, hc]
  | cons p tr ih =>
    obtain ⟨k₁, vs⟩ := p
    rw [List.foldl_cons, ih]
    by_cases hk : k₁ = k
    · subst hk
      rw [fmLookup_mergePair, if_pos rfl]
      simp only [Option.isSome_some, true_or, if_true, Option.getD_some]
      cases hc : fmLookup out k₁ <;>
        simp [hc, valsFor, List.filter_cons, List.any_cons]
    · rw [fmLookup_mergePair, if_neg hk]
      have hany2 : ((((k₁, vs) :: tr).any fun p => decide (p.1 = k))) =
          (tr.any fun p => decide (p.1 = k)) := by
        simp [hk]
      have hval2 : valsFor k ((k₁, vs) :: tr) = valsFor k tr := by
        simp [valsFor, List.filter_cons, hk]
      rw [hany2, hval2]

theorem step_out (s : PState) (m : Mode) (t : Token) (s' : PState)
    (m' : Mode) (h : step s m t = .ok (s', m')) :
    s'.out = (stepTrace s m t).foldl mergePair s.out := by
  cases m <;> simp only [step, stepTrace] at h ⊢ <;> split_ifs at h ⊢ <;>
    cases h <;>
    first
      | rfl
      | (cases hk : s.current_key <;>
          simp only [flushKeyValue, mergePair, hk, apply_ite,
            List.foldl_cons, List.foldl_nil] <;>
          first
            | rfl
            | (split_ifs <;> rfl))

theorem runAux_out (ts : List Token) (s : PState) (m : Mode) (s' : PState)
    (m' : Mode) (h : runAux ts s m = .ok (s', m')) :
    s'.out = (runTrace ts s m).foldl mergePair s.out := by
  induction ts generalizing s m with
  | nil =>
    simp only [runAux, Except.ok.injEq, Prod.mk.injEq] at h
    obtain ⟨rfl, rfl⟩ := h
    rfl
  | cons t ts ih =>
    simp only [runAux] at h
    cases hs : step s m t with
    | error e => rw [hs] at h; cases h
    | ok r =>
      obtain ⟨s1, m1⟩ := r
      rw [hs] at h
      have h1 := ih s1 m1 h
      simp only [runTrace, hs]
      rw [List.foldl_append, ← step_out s m t s1 m1 hs]
      exact h1

theorem flushKeyValue_out (s : PState) :
    (flushKeyValue s).out = (finalTrace s).foldl mergePair s.out := by
  cases hk : s.current_key with
  | none => simp [flushKeyValue, finalTrace, hk]
  | some k =>
    simp only [flushKeyValue, finalTrace, hk, List.foldl_cons,
      List.foldl_nil, mergePair]
    split_ifs <;> rfl

theorem createDictionary_ok_result (ts : List Token) (fm : FilterMap)
    (h : createDictionary ts = .ok fm) :
    ∃ s m, runAux ts initP .expectingKey = .ok (s, m) ∧
      fm = (flushKeyValue s).out ∧
      (m = .expectingListValue ∨ m = .expectingListComma ∨
        m = .expectingKeyComma) := by
  unfold createDictionary at h
  cases hr : runAux ts initP .expectingKey with
  | error e => rw [hr] at h; cases h
  | ok r =>
    obtain ⟨s, m⟩ := r
    rw [hr] at h
    refine ⟨s, m, rfl, ?_⟩
    cases m
    case expectingValue => cases tl : ts.getLast? <;> rw [tl] at h <;> cases h
    case expectingKey => cases tl : ts.getLast? <;> rw [tl] at h <;> cases h
    case expectingColon => cases tl : ts.getLast? <;> rw [tl] at h <;> cases h
    case expectingListValue =>
      injection h with h1
      exact ⟨h1.symm, Or.inl rfl⟩
    case expectingListComma =>
      injection h with h1
      exact ⟨h1.symm, Or.inr (Or.inl rfl)⟩
    case expectingKeyComma =>
      injection h with h1
      exact ⟨h1.symm, Or.inr (Or.inr rfl)⟩

/-- Claim C5: for every key `k` that occurs at least once in a
successfully parsed expression, the final `FilterMap` entry for `k` is
the concatenation, in encounter order, of the value lists of all
occurrences of `k` (a plain `key:value` occurrence contributing the
one-element list `[value]`) — values are appended, never overwritten. -/
theorem C5_repeated_keys_append (cs : List Char) (ts : List Token)
    (fm : FilterMap) (k : List Char)
    (h1 : tokenize cs = some ts) (h2 : parse cs = .ok fm)
    (h3 : occValueLists ts k ≠ []) :
    fmLookup fm k = some (occValueLists ts k).flatten := by
  have hcd : createDictionary ts = .ok fm := by
    unfold parse at h2; rw [h1] at h2; exact h2
  obtain ⟨s, m, hr, hfm, _⟩ := createDictionary_ok_result ts fm hcd
  have hout := runAux_out ts initP .expectingKey s m hr
  have hfm2 : fm = (parseTrace ts).foldl mergePair ([] : FilterMap) := by
    rw [hfm, flushKeyValue_out, hout]
    simp only [parseTrace, hr, List.foldl_append]
    rfl
  have hany : (parseTrace ts).any (fun p => decide (p.1 = k)) = true := by
    by_contra hcon
    apply h3
    unfold occValueLists valsFor
    have hfil : (parseTrace ts).filter (fun p => decide (p.1 = k)) = [] := by
      rw [List.filter_eq_nil_iff]
      intro a ha hq
      exact hcon (List.any_eq_true.mpr ⟨a, ha, hq⟩)
    rw [hfil]
    rfl
  rw [hfm2, fmLookup_foldl_mergePair]
  simp only [fmLookup, Option.isSome_none, Bool.false_eq_true, false_or,
    hany, if_true, Option.getD_none, List.nil_append]
  rfl

/-- Witness for C5 at `"a:1,a:2"`: the two occurrences of the key `a`
are concatenated into `{a: ["1", "2"]}`. -/
theorem C5_witness :
    parse "a:1,a:2".data = .ok [("a".data, ["1".data, "2".data])] ∧
      fmLookup [("a".data, ["1".data, "2".data])] "a".data =
        some ["1".data, "2".data] := by
  refine ⟨rfl, ?_⟩
  have h := C5_repeated_keys_append "a:1,a:2".data
      [⟨"a".data, false, 1⟩, ⟨":".data, true, 1⟩, ⟨"1".data, false, 3⟩,
       ⟨",".data, true, 3⟩, ⟨"a".data, false, 5⟩, ⟨":".data, true, 5⟩,
       ⟨"2".data, false, 6⟩]
      [("a".data, ["1".data, "2".data])] "a".data rfl rfl (by decide)
  exact h

/-! ### C6: list expressions `key:[v1,...,vn]` -/

theorem tokenize_ne_nil (cs : List Char) (h : cs ≠ []) :
    tokenize cs =
      some (flushCurrentItem false (cs.length - 1)
        (tokRun cs 0 initT)).tokens := by
  cases cs with
  | nil => exact absurd rfl h
  | cons c cs' => rfl

theorem tokRun_one (c : Char) (idx : Nat) (s : TState) :
    tokRun [c] idx s = tokStep s idx c :=
  rfl

theorem tokRun_plain (cs : List Char) (idx : Nat) (s : TState)
    (hall : ∀ c ∈ cs, plainChar c)
    (hesc : s.escaped = false) (hq : s.active_quotes = []) :
    tokRun cs idx s = { s with current_item := s.current_item ++ cs } := by
  induction cs generalizing idx s with
  | nil => simp [tokRun]
  | cons c cs ih =>
    obtain ⟨hc1, hc2, hc3⟩ := hall c (List.mem_cons_self c cs)
    have hstep : tokStep s idx c =
        { s with current_item := s.current_item ++ [c] } := by
      unfold tokStep
      rw [if_neg (by simp [hesc]), if_neg hc1, if_pos hq, if_neg hc2,
        if_neg hc3,
        if_neg (by intro hcomma; subst hcomma; exact hc2 (by decide))]
    show tokRun cs (idx + 1) (tokStep s idx c) = _
    rw [hstep]
    refine Eq.trans (ih (idx + 1) _
      (fun c' hc' => hall c' (List.mem_cons_of_mem c hc'))
      (by exact hesc) (by exact hq)) ?_
    simp [List.append_assoc]

theorem tokStep_special_emptyItem (s : TState) (idx : Nat) (c : Char)
    (hc : c ∈ specialCharacters) (hcq : c ∉ quoteSymbols)
    (hesc : s.escaped = false) (hq : s.active_quotes = [])
    (hci : s.current_item = []) :
    tokStep s idx c =
      { s with tokens := s.tokens ++ [⟨[c], true, idx⟩], current_item := [] } := by
  unfold tokStep
  rw [if_neg (by simp [hesc]), if_neg hcq, if_pos hq, if_pos hc]
  simp [flushCurrentItem, hci]

theorem tokStep_special_flush (s : TState) (idx : Nat) (c : Char)
    (hc : c ∈ specialCharacters) (hcq : c ∉ quoteSymbols)
    (hesc : s.escaped = false) (hq : s.active_quotes = [])
    (hci : s.current_item ≠ []) :
    tokStep s idx c =
      { s with tokens := s.tokens ++ [⟨s.current_item, false, idx⟩, ⟨[c], true, idx⟩], current_item := [] } := by
  unfold tokStep
  rw [if_neg (by simp [hesc]), if_neg hcq, if_pos hq, if_pos hc]
  simp [flushCurrentItem, hci]

theorem tokRun_joinSep (vs : List (List Char)) (i : Nat) (s : TState)
    (hvs : vs ≠ [])
    (hv : ∀ v ∈ vs, v ≠ [] ∧ ∀ c ∈ v, plainChar c)
    (hesc : s.escaped = false) (hq : s.active_quotes = [])
    (hci : s.current_item = []) :
    tokRun (joinSep vs ++ [']']) i s =
      { s with tokens := s.tokens ++ listToks i vs, current_item := [] } := by
  induction vs generalizing i s with
  | nil => exact absurd rfl hvs
  | cons v vs ih =>
    obtain ⟨hv1, hv2⟩ := hv v (List.mem_cons_self v vs)
    cases vs with
    | nil =>
      show tokRun (v ++ [']']) i s = _
      rw [tokRun_append, tokRun_plain v i s hv2 hesc hq]
      show tokStep { s with current_item := s.current_item ++ v }
          (i + v.length) ']' = _
      rw [tokStep_special_flush { s with current_item := s.current_item ++ v }
        (i + v.length) ']' (by decide) (by decide) (by exact hesc)
        (by exact hq) (by simp [hci, hv1])]
      simp [hci, hv1, listToks, List.append_assoc]
    | cons v2 vs2 =>
      have hs : joinSep (v :: v2 :: vs2) ++ [']'] =
          (v ++ [',']) ++ (joinSep (v2 :: vs2) ++ [']']) := by
        simp [joinSep, List.append_assoc]
      rw [hs, tokRun_append (v ++ [',']), tokRun_append v [','] i s,
        tokRun_plain v i s hv2 hesc hq]
      show tokRun (joinSep (v2 :: vs2) ++ [']']) (i + (v ++ [',']).length)
          (tokStep { s with current_item := s.current_item ++ v }
            (i + v.length) ',') = _
      rw [tokStep_special_flush { s with current_item := s.current_item ++ v }
        (i + v.length) ',' (by decide) (by decide) (by exact hesc)
        (by exact hq) (by simp [hci, hv1])]
      refine Eq.trans (ih _ _ (by simp)
        (fun v' hv' => hv v' (List.mem_cons_of_mem v hv'))
        (by exact hesc) (by exact hq) (by exact rfl)) ?_
      simp [hci, hv1, listToks, List.append_assoc, Nat.add_assoc]

theorem runAux_listToks (vs : List (List Char)) (i : Nat) (s : PState)
    (hvs : vs ≠ []) :
    runAux (listToks i vs) s .expectingListValue =
      .ok (flushKeyValue
        { s with current_value_list := s.current_value_list ++ vs },
        .expectingKeyComma) := by
  induction vs generalizing i s with
  | nil => exact absurd rfl hvs
  | cons v vs ih =>
    cases vs with
    | nil => simp [listToks, runAux, step]
    | cons v2 vs2 =>
      have h1 : step s .expectingListValue ⟨v, false, i + v.length⟩ =
          .ok ({ s with current_value_list := s.current_value_list ++ [v] },
            .expectingListComma) := by
        simp [step]
      have h2 : step { s with current_value_list := s.current_value_list ++ [v] }
          .expectingListComma ⟨[','], true, i + v.length⟩ =
          .ok ({ s with current_value_list := s.current_value_list ++ [v] },
            .expectingListValue) := by
        simp [step]
      have hlt : listToks i (v :: v2 :: vs2) =
          ⟨v, false, i + v.length⟩ :: ⟨[','], true, i + v.length⟩ ::
            listToks (i + v.length + 1) (v2 :: vs2) := rfl
      rw [hlt]
      simp only [runAux, h1, h2]
      rw [ih (i + v.length + 1) _ (by simp)]
      simp [List.append_assoc]

/-- Claim C6: for plain nonempty key and values, `parse` of
`key:[v1,...,vn]` with `n ≥ 1` returns `{key: [v1,...,vn]}` in listed
order, and with `n = 0` (`key:[]`) it raises `EmptyList` at the offset
of the closing bracket. -/
theorem C6_list_expression (key : List Char) (vs : List (List Char))
    (hk1 : key ≠ []) (hk2 : ∀ c ∈ key, plainChar c)
    (hv : ∀ v ∈ vs, v ≠ [] ∧ ∀ c ∈ v, plainChar c) :
    (vs ≠ [] → parse (buildExpr key vs) = .ok [(key, vs)]) ∧
    (vs = [] → parse (buildExpr key vs) =
      .error (.emptyList (key.length + 2))) := by
  have hpre : tokRun (key ++ [':'] ++ ['[']) 0 initT =
      { tokens := [⟨key, false, key.length⟩, ⟨[':'], true, key.length⟩,
          ⟨['['], true, key.length + 1⟩]
        , current_item := [], escaped := false, active_quotes := [] } := by
    rw [tokRun_append, tokRun_append, tokRun_plain key 0 initT hk2 rfl rfl,
      tokRun_one, tokRun_one]
    rw [tokStep_special_flush
      { initT with current_item := initT.current_item ++ key }
      (0 + key.length) ':' (by decide) (by decide) (by rfl) (by rfl)
      (by simp [initT, hk1])]
    rw [tokStep_special_emptyItem _ _ '[' (by decide) (by decide) (by rfl)
      (by rfl) (by rfl)]
    simp [initT, hk1, List.length_append]
  have hne : buildExpr key vs ≠ [] := by
    unfold buildExpr
    cases key <;> simp
  constructor
  · intro hvs
    have htoks : tokenize (buildExpr key vs) = some
        ([⟨key, false, key.length⟩, ⟨[':'], true, key.length⟩,
          ⟨['['], true, key.length + 1⟩] ++ listToks (key.length + 2) vs) := by
      rw [tokenize_ne_nil _ hne]
      rw [show buildExpr key vs =
        (key ++ [':'] ++ ['[']) ++ (joinSep vs ++ [']']) from by
          simp [buildExpr]]
      rw [tokRun_append, hpre]
      rw [show (0 : Nat) + (key ++ [':'] ++ ['[']).length = key.length + 2
        from by
          simp only [List.length_append, List.length_cons, List.length_nil]
          omega]
      rw [tokRun_joinSep vs _ _ hvs hv rfl rfl rfl]
      rw [flushCurrentItem_nil _ _ _ rfl]
    have h1 : runAux ([⟨key, false, key.length⟩, ⟨[':'], true, key.length⟩,
        ⟨['['], true, key.length + 1⟩] ++ listToks (key.length + 2) vs)
        initP .expectingKey =
        runAux (listToks (key.length + 2) vs)
          { out := [], current_key := some key, current_value_list := [] }
          .expectingListValue := by
      simp [runAux, step, initP]
    have hcd : createDictionary
        ([⟨key, false, key.length⟩, ⟨[':'], true, key.length⟩,
          ⟨['['], true, key.length + 1⟩] ++ listToks (key.length + 2) vs) =
        .ok [(key, vs)] := by
      unfold createDictionary
      rw [h1, runAux_listToks vs _ _ hvs]
      simp [flushKeyValue, fmLookup]
    unfold parse
    rw [htoks]
    exact hcd
  · intro hvs
    subst hvs
    have htoks : tokenize (buildExpr key []) = some
        [⟨key, false, key.length⟩, ⟨[':'], true, key.length⟩,
         ⟨['['], true, key.length + 1⟩, ⟨[']'], true, key.length + 2⟩] := by
      rw [tokenize_ne_nil _ hne]
      rw [show buildExpr key [] =
        (key ++ [':'] ++ ['[']) ++ [']'] from by simp [buildExpr, joinSep]]
      rw [tokRun_append, hpre, tokRun_one]
      rw [tokStep_special_emptyItem _ _ ']' (by decide) (by decide) (by rfl)
        (by rfl) (by rfl)]
      rw [flushCurrentItem_nil _ _ _ rfl]
      simp [List.length_append, Nat.add_assoc]
    have hcd : createDictionary
        [⟨key, false, key.length⟩, ⟨[':'], true, key.length⟩,
         ⟨['['], true, key.length + 1⟩, ⟨[']'], true, key.length + 2⟩] =
        .error (.emptyList (key.length + 2)) := by
      unfold createDictionary
      simp [runAux, step, initP]
    unfold parse
    rw [htoks]
    exact hcd

/-- Witness for C6 at `"key:[v1,v2]"` (two values) and `"key:[]"` (zero
values). -/
theorem C6_witness :
    parse "key:[v1,v2]".data =
      .ok [("key".data, ["v1".data, "v2".data])] ∧
    parse "key:[]".data = .error (.emptyList 5) := by
  have h1 := (C6_list_expression "key".data ["v1".data, "v2".data]
    (by decide) (by decide) (by decide)).1 (by decide)
  have h2 := (C6_list_expression "key".data [] (by decide) (by decide)
    (by decide)).2 rfl
  exact ⟨h1, h2⟩

/-! ### C10: unterminated quotes -/

theorem sameToks_refl (ts : List Token) : sameToks ts ts :=
  List.forall₂_same.mpr (fun _ _ => ⟨rfl, rfl⟩)

theorem sameToks_symm (a b : List Token) (h : sameToks a b) :
    sameToks b a := by
  induction h with
  | nil => exact List.Forall₂.nil
  | cons ht _ ih => exact List.Forall₂.cons ⟨ht.1.symm, ht.2.symm⟩ ih

theorem sameToks_append (a b a' b' : List Token) (h1 : sameToks a a')
    (h2 : sameToks b b') : sameToks (a ++ b) (a' ++ b') :=
  List.rel_append h1 h2

theorem step_ok_sameTok (t t' : Token) (s : PState) (m : Mode)
    (r : PState × Mode) (h1 : t.text = t'.text) (h2 : t.special = t'.special)
    (h : step s m t = .ok r) : step s m t' = .ok r := by
  cases m <;> simp only [step, ← h1, ← h2] at h ⊢ <;>
    split_ifs at h ⊢ <;> exact h

theorem runAux_ok_sameToks (ts ts' : List Token) (hsame : sameToks ts ts')
    (s : PState) (m : Mode) (r : PState × Mode)
    (h : runAux ts s m = .ok r) : runAux ts' s m = .ok r := by
  induction hsame generalizing s m with
  | nil => exact h
  | @cons a b l1 l2 ht hts ih =>
    simp only [runAux] at h ⊢
    cases hs : step s m a with
    | error e => rw [hs] at h; cases h
    | ok r1 =>
      obtain ⟨s1, m1⟩ := r1
      rw [hs] at h
      rw [step_ok_sameTok a b s m (s1, m1) ht.1 ht.2 hs]
      exact ih s1 m1 h

theorem createDictionary_ok_sameToks (ts ts' : List Token)
    (hsame : sameToks ts ts') (fm : FilterMap)
    (h : createDictionary ts = .ok fm) : createDictionary ts' = .ok fm := by
  obtain ⟨s, m, hr, hfm, hm⟩ := createDictionary_ok_result ts fm h
  have hr' := runAux_ok_sameToks ts ts' hsame initP .expectingKey (s, m) hr
  unfold createDictionary
  rw [hr']
  rcases hm with hm | hm | hm <;> subst hm <;> subst hfm <;> rfl

theorem tokStep_close_bottom (s : TState) (idx : Nat) (q : Char)
    (rest : List Char) (hesc : s.escaped = false)
    (hq : s.active_quotes = q :: rest) (hqs : q ∈ quoteSymbols) :
    tokStep s idx q = { s with active_quotes := [] } := by
  unfold tokStep
  rw [if_neg (by simp [hesc]), if_pos hqs,
    if_pos (by rw [hq]; exact List.mem_cons_self q rest)]
  rw [hq]
  simp [idxOf]

/-- Claim C10: an unterminated quote never causes an error.  For every
input that ends with the quote stack nonempty (bottom-most open symbol
`q`), the pending text is flushed as an ordinary plain token at end of
input, and `parse` succeeds on the input exactly when it succeeds, with
the same `FilterMap`, on the input with the open quote closed at the
end (`cs ++ [q]`). -/
theorem C10_unterminated_quote (cs : List Char) (q : Char)
    (hq : (tokRun cs 0 initT).active_quotes.head? = some q) :
    tokenize cs =
      some ((tokRun cs 0 initT).tokens ++
        (if (tokRun cs 0 initT).current_item = [] then []
         else [⟨(tokRun cs 0 initT).current_item, false, cs.length - 1⟩])) ∧
    ∀ fm, parse cs = .ok fm ↔ parse (cs ++ [q]) = .ok fm := by
  obtain ⟨hqok, hescq⟩ := TInv_tokRun cs 0 initT TInv_initT
  have hne : (tokRun cs 0 initT).active_quotes ≠ [] := by
    intro h0; rw [h0] at hq; cases hq
  have hesc : (tokRun cs 0 initT).escaped = false := by
    cases hb : (tokRun cs 0 initT).escaped
    · rfl
    · exact absurd (hescq hb) hne
  have hcs : cs ≠ [] := by
    intro h0
    subst h0
    exact hne (by rfl)
  have hshape : q ∈ quoteSymbols ∧
      ∃ rest, (tokRun cs 0 initT).active_quotes = q :: rest := by
    rcases hqok with h | h | h | h | h <;> rw [h] at hq
    · cases hq
    · injection hq with hq1; subst hq1; exact ⟨by decide, _, h⟩
    · injection hq with hq1; subst hq1; exact ⟨by decide, _, h⟩
    · injection hq with hq1; subst hq1; exact ⟨by decide, _, h⟩
    · injection hq with hq1; subst hq1; exact ⟨by decide, _, h⟩
  have h1 : tokenize cs =
      some ((tokRun cs 0 initT).tokens ++
        (if (tokRun cs 0 initT).current_item = [] then []
         else [⟨(tokRun cs 0 initT).current_item, false, cs.length - 1⟩])) := by
    rw [tokenize_ne_nil cs hcs]
    unfold flushCurrentItem
    by_cases hci : (tokRun cs 0 initT).current_item = []
    · rw [if_neg (by simp [hci]), if_pos hci]
      simp
    · rw [if_pos hci, if_neg hci]
  have hrun2 : tokRun (cs ++ [q]) 0 initT =
      { tokRun cs 0 initT with active_quotes := [] } := by
    obtain ⟨hqs, rest, hrest⟩ := hshape
    rw [tokRun_append, tokRun_one]
    exact tokStep_close_bottom _ _ q rest hesc hrest hqs
  have h2 : tokenize (cs ++ [q]) =
      some ((tokRun cs 0 initT).tokens ++
        (if (tokRun cs 0 initT).current_item = [] then []
         else [⟨(tokRun cs 0 initT).current_item, false, cs.length⟩])) := by
    rw [tokenize_ne_nil _ (by simp), hrun2]
    unfold flushCurrentItem
    have hlen : (cs ++ [q]).length - 1 = cs.length := by
      simp [List.length_append]
    by_cases hci : (tokRun cs 0 initT).current_item = []
    · rw [if_neg (by simp [hci]), if_pos hci]
      simp
    · rw [if_pos (by simpa using hci), if_neg hci, hlen]
  have hsame : sameToks
      ((tokRun cs 0 initT).tokens ++
        (if (tokRun cs 0 initT).current_item = [] then []
         else [⟨(tokRun cs 0 initT).current_item, false, cs.length - 1⟩]))
      ((tokRun cs 0 initT).tokens ++
        (if (tokRun cs 0 initT).current_item = [] then []
         else [⟨(tokRun cs 0 initT).current_item, false, cs.length⟩])) := by
    refine sameToks_append _ _ _ _ (sameToks_refl _) ?_
    by_cases hci : (tokRun cs 0 initT).current_item = []
    · simp [hci]
      exact List.Forall₂.nil
    · simp [hci]
      exact List.Forall₂.cons ⟨rfl, rfl⟩ List.Forall₂.nil
  refine ⟨h1, fun fm => ⟨fun hok => ?_, fun hok => ?_⟩⟩
  · unfold parse at hok ⊢
    rw [h1] at hok
    rw [h2]
    exact createDictionary_ok_sameToks _ _ hsame fm hok
  · unfold parse at hok ⊢
    rw [h2] at hok
    rw [h1]
    exact createDictionary_ok_sameToks _ _ (sameToks_symm _ _ hsame) fm hok

/-- Witness for C10 at `"a:\"xy"`: the text accumulated inside the open
quote is flushed as a final plain token, and the parse result equals the
one for the input with the quote closed at the end. -/
theorem C10_witness :
    tokenize "a:\"xy".data =
      some [⟨"a".data, false, 1⟩, ⟨":".data, true, 1⟩,
        ⟨"xy".data, false, 4⟩] ∧
      parse ("a:\"xy".data ++ ['"']) = .ok [("a".data, ["xy".data])] := by
  have h := C10_unterminated_quote "a:\"xy".data '"' (by decide)
  exact ⟨h.1, (h.2 [("a".data, ["xy".data])]).mp rfl⟩

end PlantCV
